import Mathlib

/-!
Verification of the firebirust core against its specification.

The development shallowly embeds the Rust modules `alerter.rs`, `pool.rs`,
`transaction.rs`, `wirechannel.rs` and `compression.rs`: pure functions become
Lean functions, stateful code becomes explicit state passing, machine bytes
become natural numbers (with `% 256` where a Rust `as u8` cast occurs), and
fallible code returns `Option` / `Except`.  External collaborators that are not
part of the sources (the flate2 zlib streams and the crypt translators) appear
as abstract state-transformer parameters.
-/

set_option linter.unnecessarySeqFocus false

namespace Firebirust

/- Bytes of wire buffers are modelled as natural numbers (< 256 in real
buffers; casts that truncate are written with an explicit `% 256`). -/

/-- `u32::to_le_bytes`: the 4-byte little-endian image of a 32-bit count. -/
def le4 (n : Nat) : List Nat :=
  [n % 256, n / 256 % 256, n / 65536 % 256, n / 16777216 % 256]

/-- `u32::from_le_bytes` applied to four bytes. -/
def fromLe4 (b0 b1 b2 b3 : Nat) : Nat :=
  b0 + 256 * b1 + 65536 * b2 + 16777216 * b3

theorem fromLe4_le4 (c : Nat) (h : c < 4294967296) :
    fromLe4 (c % 256) (c / 256 % 256) (c / 65536 % 256) (c / 16777216 % 256) = c := by
  unfold fromLe4
  omega

/-- Rust `char::is_whitespace`: the Unicode White_Space property. -/
def rustIsWhitespace (c : Char) : Bool :=
  let n := c.toNat
  (0x9 ≤ n && n ≤ 0xD) || n == 0x20 || n == 0x85 || n == 0xA0 || n == 0x1680 ||
    (0x2000 ≤ n && n ≤ 0x200A) || n == 0x2028 || n == 0x2029 || n == 0x202F ||
    n == 0x205F || n == 0x3000

/-- Rust `str::trim`: remove leading and trailing whitespace characters. -/
def rustTrim (s : List Char) : List Char :=
  ((s.dropWhile rustIsWhitespace).reverse.dropWhile rustIsWhitespace).reverse

/-- The UTF-8 encoding of one Unicode scalar value (Rust `char`). -/
def utf8Bytes (c : Char) : List Nat :=
  let n := c.toNat
  if n < 128 then [n]
  else if n < 2048 then [192 + n / 64, 128 + n % 64]
  else if n < 65536 then [224 + n / 4096, 128 + n / 64 % 64, 128 + n % 64]
  else [240 + n / 262144, 128 + n / 4096 % 64, 128 + n / 64 % 64, 128 + n % 64]

/-- The UTF-8 byte string of a Rust `str` (so `.length` is Rust `str::len`). -/
def utf8Str (s : List Char) : List Nat := (s.map utf8Bytes).flatten

/-- `alerter.rs`: the maximum number of events per alerter. -/
def MAX_EVENTS : Nat := 15

/-- `alerter.rs`: the Event Parameter Block version byte. -/
def EPB_VERSION1 : Nat := 1

/-- `alerter.rs  build_event_buffer`: starting from a buffer holding the
version byte, the loop pushes, for each event, the trimmed name's byte length
cast `as u8`, the trimmed name's bytes, and four zero count bytes. -/
def build_event_buffer (events : List (List Char)) : List Nat :=
  events.foldl
    (fun buf event =>
      let name := rustTrim event
      let nb := utf8Str name
      buf ++ [nb.length % 256] ++ nb ++ [0, 0, 0, 0])
    [EPB_VERSION1]

/-- `alerter.rs  parse_event_counts`, inner `for event in events` loop.
`pos` indexes into the two buffers; a failed bounds check is the `break`. -/
def pecLoop (event_buffer result_buffer : List Nat) :
    List (List Char) → Nat → List (List Char × Nat)
  | [], _ => []
  | event :: rest, pos =>
    if event_buffer.length ≤ pos then []
    else
      let name_len := event_buffer.getD pos 0
      let pos2 := pos + 1 + name_len
      if event_buffer.length < pos2 + 4 then []
      else
        let old_count := fromLe4 (event_buffer.getD pos2 0) (event_buffer.getD (pos2 + 1) 0)
          (event_buffer.getD (pos2 + 2) 0) (event_buffer.getD (pos2 + 3) 0)
        let new_count := fromLe4 (result_buffer.getD pos2 0) (result_buffer.getD (pos2 + 1) 0)
          (result_buffer.getD (pos2 + 2) 0) (result_buffer.getD (pos2 + 3) 0)
        let tail := pecLoop event_buffer result_buffer rest (pos2 + 4)
        if old_count < new_count then (event, new_count - old_count) :: tail else tail

/-- `alerter.rs  parse_event_counts`: diff the counts of a result buffer
against the previously sent event buffer, reporting `(name, delta)` for each
event whose count grew. -/
def parse_event_counts (events : List (List Char))
    (event_buffer result_buffer : List Nat) : List (List Char × Nat) :=
  if event_buffer.length ≠ result_buffer.length ∨ event_buffer = [] then []
  else pecLoop event_buffer result_buffer events 1

/-- The EPB record grammar from the spec
(`[u8 name_len][name…][u32 LE count]`, repeated until the buffer is exactly
consumed): read one length byte, that many name bytes, and a 4-byte
little-endian count, failing if the buffer is too short. -/
def epbParseRecords : List Nat → Option (List (List Nat × Nat))
  | [] => some []
  | lenB :: rest =>
    if lenB < 256 ∧ lenB + 4 ≤ rest.length then
      let name := rest.take lenB
      let c := fromLe4 (rest.getD lenB 0) (rest.getD (lenB + 1) 0)
        (rest.getD (lenB + 2) 0) (rest.getD (lenB + 3) 0)
      match epbParseRecords (rest.drop (lenB + 4)) with
      | some rs => some ((name, c) :: rs)
      | none => none
    else none
termination_by l => l.length
decreasing_by
  simp only [List.length_drop, List.length_cons]
  omega

/-- The EPB grammar from the spec: `[u8 version=1]` followed by the records. -/
def epbParse (buf : List Nat) : Option (List (List Nat × Nat)) :=
  match buf with
  | 1 :: rest => epbParseRecords rest
  | _ => none

/-- The byte image of a sequence of EPB records: for each `(name bytes, count)`
pair, one length byte (`as u8`), the name bytes, and the count little-endian. -/
def epbBodyZ : List (List Nat) → List Nat → List Nat
  | nb :: nbs, c :: cs => (nb.length % 256) :: nb ++ le4 c ++ epbBodyZ nbs cs
  | _, _ => []

/-- The per-cycle diff list the spec describes: for each event (in order)
whose new count exceeds its old count, `(name, new − old)`. -/
def epbDiffs : List (List Char) → List Nat → List Nat → List (List Char × Nat)
  | e :: es, o :: os, n :: ns =>
    if o < n then (e, n - o) :: epbDiffs es os ns else epbDiffs es os ns
  | _, _, _ => []

/-- The total delta handed to the callback for the event named `e` during one
poll cycle (`for (name, count) in fired { callback(&name, count) }`). -/
def deltaSumFor (fired : List (List Char × Nat)) (e : List Char) : Nat :=
  ((fired.filter (fun p => p.1 = e)).map (fun p => p.2)).sum

/-- `alerter.rs  event_loop`, restricted to its buffer bookkeeping: in each
cycle the fired deltas are computed from the previous event buffer and the
received result buffer, and the event buffer is then replaced by the result
buffer.  `runDeltaSum evs e bufs` is the total delta reported for event `e`
over a run whose successive buffers (initial, then each received) are `bufs`. -/
def runDeltaSum (evs : List (List Char)) (e : List Char) : List (List Nat) → Nat
  | b :: b' :: rest =>
    deltaSumFor (parse_event_counts evs b b') e + runDeltaSum evs e (b' :: rest)
  | _ => 0

/-- `alerter.rs  EventAlerter` state relevant to registration. -/
structure EventAlerter where
  events : List (List Char)
  event_buffer : List Nat
  result_buffer : List Nat
  deriving DecidableEq

/-- `alerter.rs  EventAlerter::register`: fails iff more than `MAX_EVENTS`
names are given; otherwise stores the names and builds the buffers.  The
`Error::PoolError` it returns is modelled as `none`. -/
def EventAlerter.register (a : EventAlerter) (events : List (List Char)) :
    Option EventAlerter :=
  if events.length > MAX_EVENTS then none
  else
    some { a with
      events := events
      event_buffer := build_event_buffer events
      result_buffer := build_event_buffer events }

/-! ## Connection pool (`pool.rs`)

Times are naturals (seconds on the monotonic clock); a `Connection` is
identified by a numeric id, its operational behaviour being irrelevant to the
pool claims. -/

/-- `pool.rs  PoolOptions`. -/
structure PoolOptions where
  min_size : Nat
  max_size : Nat
  connection_lifetime : Nat
  validate : Bool
  acquire_timeout : Nat
  deriving DecidableEq

/-- `pool.rs  PooledConnection`: a queued connection with its metadata. -/
structure PooledConnection where
  conn : Nat
  created_at : Nat
  version : Nat
  deriving DecidableEq

/-- `pool.rs  PoolState`. -/
structure PoolState where
  available : List PooledConnection
  in_use : Nat
  invalidate_version : Nat
  closed : Bool
  deriving DecidableEq

namespace ConnectionPool

/-- `pool.rs  ConnectionPool::new`: min_size connections are pre-created and
queued with version 0; `in_use` starts at 0 and the pool is open. -/
def initState (opts : PoolOptions) (now : Nat) : PoolState :=
  { available := (List.range opts.min_size).map (fun i => ⟨i, now, 0⟩)
    in_use := 0
    invalidate_version := 0
    closed := false }

/-- `pool.rs  ConnectionPool::is_valid`: stale when older than the configured
lifetime (if any) or created before the current invalidation version. -/
def is_valid (opts : PoolOptions) (now : Nat) (pooled : PooledConnection)
    (current_version : Nat) : Bool :=
  if opts.connection_lifetime > 0 ∧ now - pooled.created_at > opts.connection_lifetime then
    false
  else if pooled.version < current_version then false
  else true

/-- The `while let Some(pooled) = state.available.pop_front()` loop of
`try_get_available`: pop until a valid entry is found (invalid ones are
discarded), returning the popped entry and the remaining queue. -/
def tryGetLoop (opts : PoolOptions) (now : Nat) (cur : Nat) :
    List PooledConnection → Option PooledConnection × List PooledConnection
  | [] => (none, [])
  | p :: rest =>
    if is_valid opts now p cur then (some p, rest)
    else tryGetLoop opts now cur rest

/-- `pool.rs  ConnectionPool::try_get_available`: pop valid front entry if
any, incrementing `in_use` on success. -/
def try_get_available (opts : PoolOptions) (now : Nat) (s : PoolState) :
    Option PooledConnection × PoolState :=
  match tryGetLoop opts now s.invalidate_version s.available with
  | (some p, rest) => (some p, { s with available := rest, in_use := s.in_use + 1 })
  | (none, rest) => (none, { s with available := rest })

/-- `pool.rs  ConnectionPool::try_create_new`: create a connection only when
`available.len() + in_use < max_size`; `connect_ok` is whether
`Connection::connect` succeeds (on failure the error propagates with the state
unchanged). -/
def try_create_new (opts : PoolOptions) (connect_ok : Bool) (newConn : Nat)
    (s : PoolState) : Option Nat × PoolState :=
  let can_create := s.available.length + s.in_use < opts.max_size
  if can_create then
    if connect_ok then (some newConn, { s with in_use := s.in_use + 1 })
    else (none, s)
  else (none, s)

/-- `pool.rs  ConnectionPool::return_connection`: decrement `in_use`
(saturating), then push the connection to the back of `available` tagged with
the *current* `invalidate_version`, provided the pool is open and the queue is
below `max_size`. -/
def return_connection (opts : PoolOptions) (now : Nat) (conn : Nat)
    (s : PoolState) : PoolState :=
  let s1 : PoolState := { s with in_use := s.in_use - 1 }
  if ¬ s1.closed ∧ s1.available.length < opts.max_size then
    { s1 with available := s1.available ++ [⟨conn, now, s1.invalidate_version⟩] }
  else s1

/-- `pool.rs  ConnectionPool::invalidate`: bump the version counter. -/
def invalidate (s : PoolState) : PoolState :=
  { s with invalidate_version := s.invalidate_version + 1 }

/-- `pool.rs  ConnectionPool::clear`: bump the version and drop the queue. -/
def clear (s : PoolState) : PoolState :=
  { s with invalidate_version := s.invalidate_version + 1, available := [] }

/-- `pool.rs  ConnectionPool::close`: mark closed and drop the queue. -/
def close (s : PoolState) : PoolState :=
  { s with closed := true, available := [] }

end ConnectionPool

/-- One state mutation of the pool, as performed by the operations reachable
from `get`, guard drop, `invalidate`, `clear` and `close`. -/
inductive PoolStep (opts : PoolOptions) : PoolState → PoolState → Prop
  | get_available (now : Nat) (s : PoolState) :
      PoolStep opts s (ConnectionPool.try_get_available opts now s).2
  | create_new (ok : Bool) (id : Nat) (s : PoolState) :
      PoolStep opts s (ConnectionPool.try_create_new opts ok id s).2
  | return_conn (now conn : Nat) (s : PoolState) :
      PoolStep opts s (ConnectionPool.return_connection opts now conn s)
  | invalidate (s : PoolState) : PoolStep opts s (ConnectionPool.invalidate s)
  | clear (s : PoolState) : PoolStep opts s (ConnectionPool.clear s)
  | close (s : PoolState) : PoolStep opts s (ConnectionPool.close s)

/-- The pool states reachable from a freshly created pool. -/
def PoolReachable (opts : PoolOptions) (now0 : Nat) (s : PoolState) : Prop :=
  Relation.ReflTransGen (PoolStep opts) (ConnectionPool.initState opts now0) s

/-! ## Transaction (`transaction.rs`)

The connection methods a transaction calls are represented by the wire
operations they issue; `ok` is whether the server reported success. -/

/-- The operations a `Transaction` sends through its connection.
`dropTransactionOp` is `Connection::drop_transaction`.  Modelled from the
spec: `connection.rs` is not among the sources; per the spec, drop without
prior commit/rollback sends rollback, so `dropTransactionOp` stands for that
rollback. -/
inductive TxWireOp
  | commitOp
  | rollbackOp
  | dropTransactionOp
  deriving DecidableEq

/-- `transaction.rs  Transaction`: the `finished` flag (handle and connection
borrow carry no transition-relevant state). -/
structure TransactionSt where
  finished : Bool
  deriving DecidableEq

namespace Transaction

/-- `Transaction::new` / `with_options`: starts un-finished. -/
def mk0 : TransactionSt := ⟨false⟩

/-- `transaction.rs  Transaction::commit`: sends the commit op; sets
`finished` only if the result is ok. -/
def commit (s : TransactionSt) (ok : Bool) : TransactionSt × List TxWireOp :=
  ({ finished := if ok then true else s.finished }, [TxWireOp.commitOp])

/-- `transaction.rs  Transaction::rollback`: sends the rollback op; sets
`finished` only if the result is ok. -/
def rollback (s : TransactionSt) (ok : Bool) : TransactionSt × List TxWireOp :=
  ({ finished := if ok then true else s.finished }, [TxWireOp.rollbackOp])

/-- `transaction.rs  impl Drop for Transaction`: issue `drop_transaction`
exactly when `finished` is still false. -/
def dropOps (s : TransactionSt) : List TxWireOp :=
  if s.finished then [] else [TxWireOp.dropTransactionOp]

end Transaction

/-- The calls a user can make on a live transaction before it is dropped
(`execute`, `execute_batch` and `prepare` never touch `finished`). -/
inductive TxCall
  | commit (ok : Bool)
  | rollback (ok : Bool)
  | execute
  deriving DecidableEq

/-- Whether a call is a successful `commit()` or `rollback()`. -/
def TxCall.finishes : TxCall → Bool
  | .commit ok => ok
  | .rollback ok => ok
  | .execute => false

/-- Run a sequence of calls on a transaction. -/
def Transaction.runCalls (s : TransactionSt) : List TxCall → TransactionSt
  | [] => s
  | .commit ok :: rest => Transaction.runCalls (Transaction.commit s ok).1 rest
  | .rollback ok :: rest => Transaction.runCalls (Transaction.rollback s ok).1 rest
  | .execute :: rest => Transaction.runCalls s rest

/-! ## Wire compressor (`compression.rs`)

The flate2 zlib streams are external to the repository.  They are modelled as
abstract stateful transducers: `encStep e data` is one `write_all` plus sync
`flush` of the deflate stream in state `e`, returning the new stream state and
the bytes it emitted into the inner writer; `decStep` likewise for inflate.
The `Vec<u8>` inner writers, which `compress`/`decompress` clear, append to
and clone, are modelled explicitly. -/

/-- A flate2 `ZlibEncoder<Vec<u8>>`: abstract deflate-stream state plus the
inner output vector. -/
structure ZlibEncoder (E : Type) where
  st : E
  out : List Nat
  deriving DecidableEq

/-- A flate2 `ZlibDecoder<Vec<u8>>`: abstract inflate-stream state plus the
inner output vector. -/
structure ZlibDecoder (D : Type) where
  st : D
  out : List Nat
  deriving DecidableEq

/-- `compression.rs  WireCompressor`: one deflate and one inflate stream. -/
structure WireCompressor (E D : Type) where
  encoder : ZlibEncoder E
  decoder : ZlibDecoder D
  deriving DecidableEq

namespace WireCompressor

/-- `WireCompressor::new` with fresh stream states. -/
def mk0 (e0 : E) (d0 : D) : WireCompressor E D := ⟨⟨e0, []⟩, ⟨d0, []⟩⟩

/-- `compression.rs  WireCompressor::compress`: clear the inner output buffer
(`get_mut().clear()`), write the packet through the persistent deflate stream
with a sync flush, and return a clone of the inner buffer. -/
def compress (encStep : E → List Nat → E × List Nat)
    (w : WireCompressor E D) (data : List Nat) : WireCompressor E D × List Nat :=
  let cleared : ZlibEncoder E := { w.encoder with out := [] }
  let step := encStep cleared.st data
  let enc2 : ZlibEncoder E := { st := step.1, out := cleared.out ++ step.2 }
  ({ w with encoder := enc2 }, enc2.out)

/-- `compression.rs  WireCompressor::decompress`: clear the inner output
buffer, write the compressed bytes through the persistent inflate stream,
flush, and return a clone of the inner buffer. -/
def decompress (decStep : D → List Nat → D × List Nat)
    (w : WireCompressor E D) (data : List Nat) : WireCompressor E D × List Nat :=
  let cleared : ZlibDecoder D := { w.decoder with out := [] }
  let step := decStep cleared.st data
  let dec2 : ZlibDecoder D := { st := step.1, out := cleared.out ++ step.2 }
  ({ w with decoder := dec2 }, dec2.out)

/-- Compress a sequence of packets in order through one compressor. -/
def compressAll (encStep : E → List Nat → E × List Nat) :
    WireCompressor E D → List (List Nat) → WireCompressor E D × List (List Nat)
  | w, [] => (w, [])
  | w, p :: ps =>
    let r1 := compress encStep w p
    let r2 := compressAll encStep r1.1 ps
    (r2.1, r1.2 :: r2.2)

/-- Decompress a sequence of packets in order through one compressor. -/
def decompressAll (decStep : D → List Nat → D × List Nat) :
    WireCompressor E D → List (List Nat) → WireCompressor E D × List (List Nat)
  | w, [] => (w, [])
  | w, p :: ps =>
    let r1 := decompress decStep w p
    let r2 := decompressAll decStep r1.1 ps
    (r2.1, r1.2 :: r2.2)

end WireCompressor

/-- The zlib streaming contract (spec §4.1: a single stateful zlib stream per
direction, deflate with sync flush per packet): `R` relates a deflate-stream
state to an inflate-stream state that has consumed exactly its output so far,
and inflating what one sync-flushed deflate step emits recovers the packet and
re-establishes `R`. -/
def MatchedCodec (encStep : E → List Nat → E × List Nat)
    (decStep : D → List Nat → D × List Nat) (R : E → D → Prop) : Prop :=
  ∀ e d data, R e d →
    R (encStep e data).1 (decStep d (encStep e data).2).1
    ∧ (decStep d (encStep e data).2).2 = data

/-! ## Wire channel (`wirechannel.rs`)

The crypt translators live in `crypt_translater.rs`, which is not among the
sources.  Modelled from the spec: a translator is a stateful, per-direction
byte-stream transform `translate(bytes) -> bytes`; its state type `T` and step
function `tf` are abstract parameters.  The zlib streams are the abstract
transducers above.  Socket input is the list of chunk payloads successive
`reader.read` calls deliver, an empty chunk being the `ln == 0` (closed)
case; end of that list is likewise a closed socket. -/

/-- `wirechannel.rs  WireChannel`: the inbound byte queue, the two optional
translators, the optional compressor and the compression flag.  (The raw
socket handles carry no transition-relevant state.) -/
structure WireChannelSt (T E D : Type) where
  read_buf : List Nat
  read_trans : Option T
  write_trans : Option T
  compressor : Option (WireCompressor E D)
  compressed : Bool
  deriving DecidableEq

/-- Error value of `WireChannel::read`:
`Error::IoError(ErrorKind::UnexpectedEof)`. -/
inductive WireChannelErr
  | unexpectedEof
  deriving DecidableEq

namespace WireChannel

/-- `wirechannel.rs  WireChannel::enable_compression`. -/
def enable_compression (e0 : E) (d0 : D) (s : WireChannelSt T E D) :
    WireChannelSt T E D :=
  { s with compressor := some (WireCompressor.mk0 e0 d0), compressed := true }

/-- `wirechannel.rs  WireChannel::set_crypt_key`: install fresh translators
for the ChaCha / ChaCha64 / Arc4 plugins; any other plugin name falls through
both branches.  `chachaNew`/`arc4New` are the translator constructors and
`sha256` the digest, all abstract (modelled from the spec: `crypt_translater.rs`
is not among the sources). -/
def set_crypt_key (chachaNew : List Nat → List Nat → T)
    (arc4New : List Nat → T) (sha256 : List Nat → List Nat)
    (s : WireChannelSt T E D) (plugin key nonce : List Nat) :
    WireChannelSt T E D :=
  if plugin = [67, 104, 97, 67, 104, 97, 54, 52] ∨ plugin = [67, 104, 97, 67, 104, 97] then
    -- b"ChaCha64" / b"ChaCha"
    let key2 := sha256 key
    { s with
      read_trans := some (chachaNew key2 nonce)
      write_trans := some (chachaNew key2 nonce) }
  else if plugin = [65, 114, 99, 52] then
    -- b"Arc4"
    { s with
      read_trans := some (arc4New key)
      write_trans := some (arc4New key) }
  else s

/-- `wirechannel.rs  WireChannel::write`: compress first (when compression is
enabled and a compressor is present), then encrypt (when a write translator is
installed).  Returns the updated channel and the bytes handed to the socket
writer. -/
def write (tf : T → List Nat → T × List Nat)
    (encStep : E → List Nat → E × List Nat)
    (s : WireChannelSt T E D) (buf : List Nat) :
    WireChannelSt T E D × List Nat :=
  let step1 : WireChannelSt T E D × List Nat :=
    if s.compressed then
      match s.compressor with
      | some comp =>
          let r := WireCompressor.compress encStep comp buf
          ({ s with compressor := some r.1 }, r.2)
      | none => (s, buf)
    else (s, buf)
  match step1.1.write_trans with
  | some t =>
      let r := tf t step1.2
      ({ step1.1 with write_trans := some r.1 }, r.2)
  | none => (step1.1, step1.2)

/-- The body of the refill loop in `wirechannel.rs  WireChannel::read` for one
received chunk: decrypt first (when a read translator is installed), then
decompress (when compression is enabled and a compressor is present), then
extend `read_buf`. -/
def processChunk (tf : T → List Nat → T × List Nat)
    (decStep : D → List Nat → D × List Nat)
    (s : WireChannelSt T E D) (chunk : List Nat) : WireChannelSt T E D :=
  let step1 : WireChannelSt T E D × List Nat :=
    match s.read_trans with
    | some t =>
        let r := tf t chunk
        ({ s with read_trans := some r.1 }, r.2)
    | none => (s, chunk)
  let step2 : WireChannelSt T E D × List Nat :=
    if step1.1.compressed then
      match step1.1.compressor with
      | some comp =>
          let r := WireCompressor.decompress decStep comp step1.2
          ({ step1.1 with compressor := some r.1 }, r.2)
      | none => (step1.1, step1.2)
    else (step1.1, step1.2)
  { step2.1 with read_buf := step2.1.read_buf ++ step2.2 }

/-- `wirechannel.rs  WireChannel::read`: while fewer than `n` bytes are
buffered, read the next socket chunk (a closed socket — `ln == 0` or an
exhausted stream — gives `UnexpectedEof`) and push it through the inbound
pipeline; then drain exactly `n` bytes.  Returns the drained bytes, the
updated channel and the unread remainder of the socket stream. -/
def read (tf : T → List Nat → T × List Nat)
    (decStep : D → List Nat → D × List Nat)
    (s : WireChannelSt T E D) (socket : List (List Nat)) (n : Nat) :
    Except WireChannelErr (List Nat × WireChannelSt T E D × List (List Nat)) :=
  if n ≤ s.read_buf.length then
    .ok (s.read_buf.take n, { s with read_buf := s.read_buf.drop n }, socket)
  else
    match socket with
    | [] => .error .unexpectedEof
    | chunk :: rest =>
      if chunk.isEmpty then .error .unexpectedEof
      else read tf decStep (processChunk tf decStep s chunk) rest n

/-- The number of bytes the channel can still deliver: what is buffered plus
everything the inbound pipeline produces from the socket chunks that precede
the first closed read. -/
def deliverable (tf : T → List Nat → T × List Nat)
    (decStep : D → List Nat → D × List Nat)
    (s : WireChannelSt T E D) (socket : List (List Nat)) : Nat :=
  (List.foldl (processChunk tf decStep) s
    (socket.takeWhile (fun c => !c.isEmpty))).read_buf.length

end WireChannel

/-! ## Theorems -/

section Claims

lemma runCalls_finished (s : TransactionSt) (calls : List TxCall) :
    (Transaction.runCalls s calls).finished = (s.finished || calls.any TxCall.finishes) := by
  induction calls generalizing s with
  | nil => simp [Transaction.runCalls]
  | cons c rest ih =>
    cases c with
    | commit ok =>
      simp only [Transaction.runCalls, Transaction.commit, ih, List.any_cons, TxCall.finishes]
      cases ok <;> cases s.finished <;> simp
    | rollback ok =>
      simp only [Transaction.runCalls, Transaction.rollback, ih, List.any_cons, TxCall.finishes]
      cases ok <;> cases s.finished <;> simp
    | execute =>
      simp [Transaction.runCalls, ih, TxCall.finishes]

/-- C5: after any sequence of calls on a fresh transaction, dropping it issues
exactly one rollback (the `drop_transaction` op) iff no `commit()` or
`rollback()` call succeeded, and issues nothing otherwise; in particular a
failed `commit()` leaves the transaction un-finished, so the drop still rolls
back. -/
theorem transaction_drop_rollback_c5 (calls : List TxCall) :
    Transaction.dropOps (Transaction.runCalls Transaction.mk0 calls)
      = if calls.any TxCall.finishes then [] else [TxWireOp.dropTransactionOp] := by
  simp only [Transaction.dropOps, runCalls_finished, Transaction.mk0, Bool.false_or]

/-- C9: `set_crypt_key` with a plugin name other than `ChaCha64`, `ChaCha` or
`Arc4` leaves the channel entirely unchanged (both translators stay as they
were, in particular `None`), and no error is reported (the function returns
normally). -/
theorem set_crypt_key_unknown_plugin_c9 {T E D : Type}
    (chachaNew : List Nat → List Nat → T) (arc4New : List Nat → T)
    (sha256 : List Nat → List Nat) (s : WireChannelSt T E D)
    (plugin key nonce : List Nat)
    (h1 : plugin ≠ [67, 104, 97, 67, 104, 97, 54, 52])
    (h2 : plugin ≠ [67, 104, 97, 67, 104, 97])
    (h3 : plugin ≠ [65, 114, 99, 52]) :
    WireChannel.set_crypt_key chachaNew arc4New sha256 s plugin key nonce = s := by
  simp [WireChannel.set_crypt_key, h1, h2, h3]

theorem set_crypt_key_unknown_plugin_c9_witness :
    WireChannel.set_crypt_key (T := Unit) (E := Unit) (D := Unit)
      (fun _ _ => ()) (fun _ => ()) (fun k => k)
      ⟨[], none, none, none, false⟩ [70, 111, 111] [1] [2]
      = ⟨[], none, none, none, false⟩ :=
  set_crypt_key_unknown_plugin_c9 _ _ _ _ _ _ _ (by decide) (by decide) (by decide)

/-- C1: with compression and encryption both enabled, a `write` hands the
socket exactly `encrypt(compress(buf))`, and each received chunk is enqueued
as `decompress(decrypt(chunk))` — encryption is the outermost layer in both
directions. -/
theorem pipeline_order_c1 {T E D : Type}
    (tf : T → List Nat → T × List Nat)
    (encStep : E → List Nat → E × List Nat)
    (decStep : D → List Nat → D × List Nat)
    (s : WireChannelSt T E D) (t r : T) (comp : WireCompressor E D)
    (buf chunk : List Nat)
    (hcmp : s.compressed = true) (hc : s.compressor = some comp)
    (hw : s.write_trans = some t) (hr : s.read_trans = some r) :
    (WireChannel.write tf encStep s buf).2
        = (tf t (WireCompressor.compress encStep comp buf).2).2
    ∧ (WireChannel.processChunk tf decStep s chunk).read_buf
        = s.read_buf ++ (WireCompressor.decompress decStep comp (tf r chunk).2).2 := by
  constructor
  · simp [WireChannel.write, hcmp, hc, hw]
  · simp [WireChannel.processChunk, hcmp, hc, hr]

theorem pipeline_order_c1_witness :
    (WireChannel.write (T := Unit) (E := Unit) (D := Unit)
        (fun _ l => ((), 9 :: l)) (fun _ l => ((), 7 :: l))
        ⟨[1], some (), some (), some (WireCompressor.mk0 () ()), true⟩ [5]).2 = [9, 7, 5]
    ∧ (WireChannel.processChunk (T := Unit) (E := Unit) (D := Unit)
        (fun _ l => ((), 9 :: l)) (fun _ l => ((), 8 :: l))
        ⟨[1], some (), some (), some (WireCompressor.mk0 () ()), true⟩ [4]).read_buf
      = [1, 8, 9, 4] := by
  have h1 := (pipeline_order_c1 (T := Unit) (E := Unit) (D := Unit)
    (fun _ l => ((), 9 :: l)) (fun _ l => ((), 7 :: l)) (fun _ l => ((), 8 :: l))
    ⟨[1], some (), some (), some (WireCompressor.mk0 () ()), true⟩ () ()
    (WireCompressor.mk0 () ()) [5] [4] rfl rfl rfl rfl).1
  have h2 := (pipeline_order_c1 (T := Unit) (E := Unit) (D := Unit)
    (fun _ l => ((), 9 :: l)) (fun _ l => ((), 7 :: l)) (fun _ l => ((), 8 :: l))
    ⟨[1], some (), some (), some (WireCompressor.mk0 () ()), true⟩ () ()
    (WireCompressor.mk0 () ()) [5] [4] rfl rfl rfl rfl).2
  refine ⟨?_, ?_⟩
  · simpa [WireCompressor.compress, WireCompressor.mk0] using h1
  · simpa [WireCompressor.decompress, WireCompressor.mk0] using h2

/-- C8: compressing packets B₁…Bₖ in order with one `WireCompressor` and
decompressing the outputs in the same order with a peer whose inflate stream
is matched to the sender's deflate stream recovers exactly B₁…Bₖ. -/
theorem compressor_roundtrip_c8 {E D : Type}
    (encStep : E → List Nat → E × List Nat)
    (decStep : D → List Nat → D × List Nat)
    (R : E → D → Prop) (hM : MatchedCodec encStep decStep R)
    (ws wr : WireCompressor E D) (hR : R ws.encoder.st wr.decoder.st)
    (pkts : List (List Nat)) :
    (WireCompressor.decompressAll decStep wr
      (WireCompressor.compressAll encStep ws pkts).2).2 = pkts := by
  induction pkts generalizing ws wr with
  | nil => simp [WireCompressor.compressAll, WireCompressor.decompressAll]
  | cons p ps ih =>
    have h := hM ws.encoder.st wr.decoder.st p hR
    simp only [WireCompressor.compressAll, WireCompressor.decompressAll,
      WireCompressor.compress, WireCompressor.decompress, List.nil_append]
    exact List.cons_eq_cons.mpr ⟨h.2, ih _ _ h.1⟩

theorem compressor_roundtrip_c8_witness :
    (WireCompressor.decompressAll (fun (d : Unit) l => (d, l))
      (WireCompressor.mk0 () ())
      (WireCompressor.compressAll (fun (e : Unit) l => (e, l))
        (WireCompressor.mk0 () ()) [[1], [2, 3]]).2).2 = [[1], [2, 3]] :=
  compressor_roundtrip_c8 (fun e l => (e, l)) (fun d l => (d, l)) (fun _ _ => True)
    (by intro e d data h; exact ⟨trivial, rfl⟩)
    (WireCompressor.mk0 () ()) (WireCompressor.mk0 () ()) trivial [[1], [2, 3]]

/-- C3 (code bug): from an open pool with one connection in use, calling
`invalidate()` and then dropping the guard pushes the connection back onto
`available`, tagged with the *new* generation, and the very next pop hands it
out again — the code never discards an in-use connection on return, contrary
to the claim and to the doc comment on `invalidate()` itself. -/
theorem pool_invalidate_return_c3_bug :
    (ConnectionPool.return_connection ⟨0, 10, 0, false, 30⟩ 0 7
        (ConnectionPool.invalidate
          (ConnectionPool.try_create_new ⟨0, 10, 0, false, 30⟩ true 7
            (ConnectionPool.initState ⟨0, 10, 0, false, 30⟩ 0)).2)).available
      = [⟨7, 0, 1⟩]
    ∧ (ConnectionPool.try_get_available ⟨0, 10, 0, false, 30⟩ 0
        (ConnectionPool.return_connection ⟨0, 10, 0, false, 30⟩ 0 7
          (ConnectionPool.invalidate
            (ConnectionPool.try_create_new ⟨0, 10, 0, false, 30⟩ true 7
              (ConnectionPool.initState ⟨0, 10, 0, false, 30⟩ 0)).2))).1
      = some ⟨7, 0, 1⟩ := by
  decide

lemma tryGetLoop_length (opts : PoolOptions) (now cur : Nat)
    (l : List PooledConnection) :
    (ConnectionPool.tryGetLoop opts now cur l).2.length
      + (if (ConnectionPool.tryGetLoop opts now cur l).1.isSome then 1 else 0)
      ≤ l.length := by
  induction l with
  | nil => simp [ConnectionPool.tryGetLoop]
  | cons p rest ih =>
    by_cases hv : ConnectionPool.is_valid opts now p cur <;>
      simp [ConnectionPool.tryGetLoop, hv] <;> omega

lemma pool_step_cap (opts : PoolOptions) {a b : PoolState} (hstep : PoolStep opts a b)
    (ha : a.available.length + a.in_use ≤ opts.max_size) :
    b.available.length + b.in_use ≤ opts.max_size := by
  cases hstep with
  | get_available now s =>
    have h := tryGetLoop_length opts now a.invalidate_version a.available
    unfold ConnectionPool.try_get_available
    rcases hm : ConnectionPool.tryGetLoop opts now a.invalidate_version a.available with
      ⟨op, rest⟩
    rw [hm] at h
    cases op <;> simp_all <;> omega
  | create_new ok id s =>
    simp only [ConnectionPool.try_create_new]
    split
    · cases ok <;> simp_all <;> omega
    · dsimp only
      omega
  | return_conn now conn s =>
    unfold ConnectionPool.return_connection
    dsimp only
    split
    · simp only [List.length_append, List.length_cons, List.length_nil]
      omega
    · dsimp only
      omega
  | invalidate s => simpa [ConnectionPool.invalidate] using ha
  | clear s => simp [ConnectionPool.clear]; omega
  | close s => simp [ConnectionPool.close]; omega

/-- C2 (amended): for a pool created with `min_size ≤ max_size`, the invariant
`available.len() + in_use ≤ max_size` holds in every state reachable by pool
operations. -/
theorem pool_cap_c2_amended (opts : PoolOptions) (now0 : Nat) (s : PoolState)
    (hmin : opts.min_size ≤ opts.max_size) (h : PoolReachable opts now0 s) :
    s.available.length + s.in_use ≤ opts.max_size := by
  induction h with
  | refl => simpa [ConnectionPool.initState] using hmin
  | tail _ hstep ih => exact pool_step_cap opts hstep ih

theorem pool_cap_c2_witness :
    (ConnectionPool.return_connection ⟨1, 10, 0, false, 30⟩ 3 5
        (ConnectionPool.initState ⟨1, 10, 0, false, 30⟩ 0)).available.length
      + (ConnectionPool.return_connection ⟨1, 10, 0, false, 30⟩ 3 5
        (ConnectionPool.initState ⟨1, 10, 0, false, 30⟩ 0)).in_use ≤ 10 :=
  pool_cap_c2_amended ⟨1, 10, 0, false, 30⟩ 0 _ (by decide)
    (Relation.ReflTransGen.single (PoolStep.return_conn 3 5 _))

/-- C2 (counterexample to the claim as stated): a pool created with
`min_size = 2, max_size = 1` — options the constructor accepts — starts, hence
reaches, a state with `available.len() + in_use = 2 > max_size = 1`. -/
theorem pool_cap_c2_counterexample :
    PoolReachable ⟨2, 1, 0, false, 30⟩ 0 (ConnectionPool.initState ⟨2, 1, 0, false, 30⟩ 0)
    ∧ ¬ ((ConnectionPool.initState ⟨2, 1, 0, false, 30⟩ 0).available.length
          + (ConnectionPool.initState ⟨2, 1, 0, false, 30⟩ 0).in_use
        ≤ (PoolOptions.mk 2 1 0 false 30).max_size) :=
  ⟨Relation.ReflTransGen.refl, by decide⟩

lemma processChunk_read_buf {T E D : Type} (tf : T → List Nat → T × List Nat)
    (decStep : D → List Nat → D × List Nat)
    (s : WireChannelSt T E D) (chunk : List Nat) :
    ∃ out, (WireChannel.processChunk tf decStep s chunk).read_buf
      = s.read_buf ++ out := by
  rcases s with ⟨rb, rt, wt, cp, cm⟩
  cases rt <;> cases cm <;> cases cp <;> exact ⟨_, rfl⟩

lemma foldl_processChunk_read_buf {T E D : Type} (tf : T → List Nat → T × List Nat)
    (decStep : D → List Nat → D × List Nat)
    (l : List (List Nat)) (s : WireChannelSt T E D) :
    ∃ out, (List.foldl (WireChannel.processChunk tf decStep) s l).read_buf
      = s.read_buf ++ out := by
  induction l generalizing s with
  | nil => exact ⟨[], by simp⟩
  | cons c l ih =>
    obtain ⟨o1, h1⟩ := processChunk_read_buf tf decStep s c
    obtain ⟨o2, h2⟩ := ih (WireChannel.processChunk tf decStep s c)
    exact ⟨o1 ++ o2, by simp [List.foldl_cons, h2, h1]⟩

lemma le_deliverable {T E D : Type} (tf : T → List Nat → T × List Nat)
    (decStep : D → List Nat → D × List Nat)
    (s : WireChannelSt T E D) (socket : List (List Nat)) :
    s.read_buf.length ≤ WireChannel.deliverable tf decStep s socket := by
  unfold WireChannel.deliverable
  obtain ⟨out, h⟩ :=
    foldl_processChunk_read_buf tf decStep (socket.takeWhile fun c => !c.isEmpty) s
  simp [h]

lemma deliverable_nil {T E D : Type} (tf : T → List Nat → T × List Nat)
    (decStep : D → List Nat → D × List Nat) (s : WireChannelSt T E D) :
    WireChannel.deliverable tf decStep s [] = s.read_buf.length := by
  simp [WireChannel.deliverable]

lemma deliverable_cons_empty {T E D : Type} (tf : T → List Nat → T × List Nat)
    (decStep : D → List Nat → D × List Nat) (s : WireChannelSt T E D)
    (chunk : List Nat) (rest : List (List Nat)) (h : chunk.isEmpty) :
    WireChannel.deliverable tf decStep s (chunk :: rest) = s.read_buf.length := by
  simp [WireChannel.deliverable, List.takeWhile_cons, h]

lemma deliverable_cons_ne {T E D : Type} (tf : T → List Nat → T × List Nat)
    (decStep : D → List Nat → D × List Nat) (s : WireChannelSt T E D)
    (chunk : List Nat) (rest : List (List Nat)) (h : ¬ chunk.isEmpty = true) :
    WireChannel.deliverable tf decStep s (chunk :: rest)
      = WireChannel.deliverable tf decStep (WireChannel.processChunk tf decStep s chunk) rest := by
  simp [WireChannel.deliverable, List.takeWhile_cons, h]

lemma read_full {T E D : Type} (tf : T → List Nat → T × List Nat)
    (decStep : D → List Nat → D × List Nat) (s : WireChannelSt T E D)
    (socket : List (List Nat)) (n : Nat) (hn : n ≤ s.read_buf.length) :
    WireChannel.read tf decStep s socket n
      = .ok (s.read_buf.take n, { s with read_buf := s.read_buf.drop n }, socket) := by
  rw [WireChannel.read.eq_def, if_pos hn]

lemma read_nil {T E D : Type} (tf : T → List Nat → T × List Nat)
    (decStep : D → List Nat → D × List Nat) (s : WireChannelSt T E D)
    (n : Nat) (hn : ¬ n ≤ s.read_buf.length) :
    WireChannel.read tf decStep s [] n = .error .unexpectedEof := by
  rw [WireChannel.read.eq_def, if_neg hn]

lemma read_cons {T E D : Type} (tf : T → List Nat → T × List Nat)
    (decStep : D → List Nat → D × List Nat) (s : WireChannelSt T E D)
    (chunk : List Nat) (rest : List (List Nat)) (n : Nat)
    (hn : ¬ n ≤ s.read_buf.length) :
    WireChannel.read tf decStep s (chunk :: rest) n
      = if chunk.isEmpty then .error .unexpectedEof
        else WireChannel.read tf decStep (WireChannel.processChunk tf decStep s chunk) rest n := by
  rw [WireChannel.read.eq_def, if_neg hn]

/-- C6: `read n` returns exactly `n` bytes whenever it returns `Ok` — namely
the first `n` bytes accumulated, with everything beyond `n` left buffered for
later reads and the unconsumed socket chunks untouched; it fails (and then
only with `UnexpectedEof`) exactly when the socket delivers a zero-byte read
before `n` bytes have accumulated in the inbound buffer. -/
theorem read_exact_c6 {T E D : Type}
    (tf : T → List Nat → T × List Nat)
    (decStep : D → List Nat → D × List Nat)
    (s : WireChannelSt T E D) (socket : List (List Nat)) (n : Nat) :
    (∀ v s2 rest, WireChannel.read tf decStep s socket n = .ok (v, s2, rest) →
        v.length = n
        ∧ ∃ k, rest = socket.drop k
            ∧ v = (List.foldl (WireChannel.processChunk tf decStep) s
                    (socket.take k)).read_buf.take n
            ∧ s2.read_buf = (List.foldl (WireChannel.processChunk tf decStep) s
                    (socket.take k)).read_buf.drop n)
    ∧ (∀ e, WireChannel.read tf decStep s socket n = .error e → e = .unexpectedEof)
    ∧ ((∃ v s2 rest, WireChannel.read tf decStep s socket n = .ok (v, s2, rest))
        ↔ n ≤ WireChannel.deliverable tf decStep s socket) := by
  induction socket generalizing s with
  | nil =>
    by_cases hn : n ≤ s.read_buf.length
    · refine ⟨?_, ?_, ?_⟩
      · intro v s2 rest heq
        rw [read_full tf decStep s [] n hn] at heq
        simp only [Except.ok.injEq, Prod.mk.injEq] at heq
        obtain ⟨hv, hs2, hrest⟩ := heq
        subst hv hs2 hrest
        refine ⟨by simp [List.length_take]; omega, 0, by simp, by simp, by simp⟩
      · intro e heq
        cases e
        rfl
      · rw [deliverable_nil]
        exact ⟨fun _ => hn, fun _ => ⟨_, _, _, read_full tf decStep s [] n hn⟩⟩
    · refine ⟨?_, ?_, ?_⟩
      · intro v s2 rest heq
        rw [read_nil tf decStep s n hn] at heq
        exact absurd heq (by simp)
      · intro e heq
        cases e
        rfl
      · rw [deliverable_nil]
        constructor
        · rintro ⟨v, s2, rest, heq⟩
          rw [read_nil tf decStep s n hn] at heq
          exact absurd heq (by simp)
        · intro hle
          exact absurd hle hn
  | cons chunk rest ih =>
    by_cases hn : n ≤ s.read_buf.length
    · refine ⟨?_, ?_, ?_⟩
      · intro v s2 r heq
        rw [read_full tf decStep s (chunk :: rest) n hn] at heq
        simp only [Except.ok.injEq, Prod.mk.injEq] at heq
        obtain ⟨hv, hs2, hr⟩ := heq
        subst hv hs2 hr
        refine ⟨by simp [List.length_take]; omega, 0, by simp, by simp, by simp⟩
      · intro e heq
        cases e
        rfl
      · constructor
        · intro _
          exact le_trans hn (le_deliverable tf decStep s (chunk :: rest))
        · intro _
          exact ⟨_, _, _, read_full tf decStep s (chunk :: rest) n hn⟩
    · by_cases hemp : chunk.isEmpty = true
      · refine ⟨?_, ?_, ?_⟩
        · intro v s2 r heq
          rw [read_cons tf decStep s chunk rest n hn, if_pos hemp] at heq
          exact absurd heq (by simp)
        · intro e heq
          cases e
          rfl
        · rw [deliverable_cons_empty tf decStep s chunk rest hemp]
          constructor
          · rintro ⟨v, s2, r, heq⟩
            rw [read_cons tf decStep s chunk rest n hn, if_pos hemp] at heq
            exact absurd heq (by simp)
          · intro hle
            exact absurd hle hn
      · obtain ⟨ih1, ih2, ih3⟩ := ih (WireChannel.processChunk tf decStep s chunk)
        refine ⟨?_, ?_, ?_⟩
        · intro v s2 r heq
          rw [read_cons tf decStep s chunk rest n hn, if_neg hemp] at heq
          obtain ⟨hlen, k, hr, hv, hs2⟩ := ih1 v s2 r heq
          refine ⟨hlen, k + 1, ?_, ?_, ?_⟩
          · simpa [List.drop_succ_cons] using hr
          · simpa [List.take_succ_cons, List.foldl_cons] using hv
          · simpa [List.take_succ_cons, List.foldl_cons] using hs2
        · intro e heq
          cases e
          rfl
        · rw [read_cons tf decStep s chunk rest n hn, if_neg hemp,
            deliverable_cons_ne tf decStep s chunk rest hemp]
          exact ih3

theorem read_exact_c6_witness :
    ∃ v s2 rest,
      WireChannel.read (T := Unit) (E := Unit) (D := Unit)
        (fun _ l => ((), l)) (fun _ l => ((), l))
        ⟨[1, 2], none, none, none, false⟩ [[4, 5]] 4 = .ok (v, s2, rest) :=
  (read_exact_c6 (fun _ l => ((), l)) (fun _ l => ((), l))
    ⟨[1, 2], none, none, none, false⟩ [[4, 5]] 4).2.2.mpr (by decide)

lemma build_event_buffer_foldl (events : List (List Char)) (acc : List Nat) :
    events.foldl
        (fun buf event =>
          let name := rustTrim event
          let nb := utf8Str name
          buf ++ [nb.length % 256] ++ nb ++ [0, 0, 0, 0]) acc
      = acc ++ events.flatMap (fun e =>
          ((utf8Str (rustTrim e)).length % 256) :: (utf8Str (rustTrim e) ++ [0, 0, 0, 0])) := by
  induction events generalizing acc with
  | nil => simp
  | cons e es ih =>
    simp only [List.foldl_cons, List.flatMap_cons, ih]
    simp

lemma build_event_buffer_flat (events : List (List Char)) :
    build_event_buffer events
      = EPB_VERSION1 :: events.flatMap (fun e =>
          ((utf8Str (rustTrim e)).length % 256) :: (utf8Str (rustTrim e) ++ le4 0)) := by
  rw [build_event_buffer, build_event_buffer_foldl]
  rfl

/-- C7 (counterexample to the claim as stated): for the event name `" a"`
(a name carrying leading whitespace), the buffer is *not* the version byte
followed by one length byte, the name's bytes and four zero count bytes —
the code emits the trimmed name `"a"` with length 1 instead. -/
theorem epb_layout_c7_counterexample :
    build_event_buffer [[' ', 'a']]
      ≠ EPB_VERSION1 :: ([[' ', 'a']].flatMap (fun e =>
          (utf8Str e).length :: (utf8Str e ++ [0, 0, 0, 0]))) := by
  decide

/-- C7 (amended): `build_event_buffer` produces exactly one version byte equal
to 1 followed by, for each name in registration order, one length byte equal
to the *trimmed* name's byte length reduced `mod 256`, the *trimmed* name's
bytes, and a 4-byte little-endian count initialized to 0 — with no other
bytes. -/
theorem epb_layout_c7_amended (events : List (List Char)) :
    build_event_buffer events
      = 1 :: events.flatMap (fun e =>
          ((utf8Str (rustTrim e)).length % 256) :: (utf8Str (rustTrim e) ++ le4 0)) := by
  rw [build_event_buffer_flat]
  rfl

lemma getD_append_len (u l : List Nat) (i : Nat) (d : Nat) :
    (u ++ l).getD (u.length + i) d = l.getD i d := by
  induction u with
  | nil => simp
  | cons a u ih =>
    simp only [List.cons_append, List.length_cons]
    have he : u.length + 1 + i = (u.length + i) + 1 := by omega
    rw [he, List.getD_cons_succ, ih]

lemma epbBodyZ_map_zero (events : List (List Char)) :
    epbBodyZ (events.map (fun e => utf8Str (rustTrim e))) (List.replicate events.length 0)
      = events.flatMap (fun e =>
          ((utf8Str (rustTrim e)).length % 256) :: (utf8Str (rustTrim e) ++ le4 0)) := by
  induction events with
  | nil => rfl
  | cons e es ih =>
    simp only [List.map_cons, List.length_cons, List.replicate_succ, epbBodyZ,
      List.flatMap_cons, ih]
    simp

lemma epbParseRecords_cons (nb : List Nat) (c : Nat) (tail : List Nat)
    (hnb : nb.length ≤ 255) (hc : c < 4294967296) :
    epbParseRecords (nb.length :: (nb ++ (le4 c ++ tail)))
      = match epbParseRecords tail with
        | some rs => some ((nb, c) :: rs)
        | none => none := by
  have hcond : nb.length < 256 ∧ nb.length + 4 ≤ (nb ++ (le4 c ++ tail)).length := by
    simp [le4]
    omega
  have hname : (nb ++ (le4 c ++ tail)).take nb.length = nb := List.take_left nb _
  have hdrop : (nb ++ (le4 c ++ tail)).drop (nb.length + 4) = tail := by
    rw [List.drop_append]
    rfl
  have h0 : (nb ++ (le4 c ++ tail)).getD nb.length 0 = c % 256 := by
    simpa using getD_append_len nb (le4 c ++ tail) 0 0
  have h1 : (nb ++ (le4 c ++ tail)).getD (nb.length + 1) 0 = c / 256 % 256 :=
    getD_append_len nb (le4 c ++ tail) 1 0
  have h2 : (nb ++ (le4 c ++ tail)).getD (nb.length + 2) 0 = c / 65536 % 256 :=
    getD_append_len nb (le4 c ++ tail) 2 0
  have h3 : (nb ++ (le4 c ++ tail)).getD (nb.length + 3) 0 = c / 16777216 % 256 :=
    getD_append_len nb (le4 c ++ tail) 3 0
  rw [epbParseRecords, if_pos hcond, hname, hdrop, h0, h1, h2, h3, fromLe4_le4 c hc]

lemma epbParseRecords_bodyZ (nbs : List (List Nat)) (cs : List Nat)
    (hlen : cs.length = nbs.length) (hnb : ∀ nb ∈ nbs, nb.length ≤ 255)
    (hcs : ∀ c ∈ cs, c < 4294967296) :
    epbParseRecords (epbBodyZ nbs cs) = some (nbs.zip cs) := by
  induction nbs generalizing cs with
  | nil =>
    cases cs with
    | nil => simp [epbBodyZ, epbParseRecords]
    | cons c cs => simp at hlen
  | cons nb nbs ih =>
    cases cs with
    | nil => simp at hlen
    | cons c cs =>
      have hnb0 : nb.length ≤ 255 := hnb nb (by simp)
      have hmod : nb.length % 256 = nb.length := Nat.mod_eq_of_lt (by omega)
      have hrec := ih cs (by simpa using hlen) (fun x hx => hnb x (by simp [hx]))
        (fun x hx => hcs x (by simp [hx]))
      simp only [epbBodyZ, hmod, List.append_assoc, List.cons_append]
      rw [epbParseRecords_cons nb c (epbBodyZ nbs cs) hnb0 (hcs c (by simp)), hrec]
      simp

lemma epbParseRecords_names {buf : List Nat} {recs : List (List Nat × Nat)}
    (h : epbParseRecords buf = some recs) : ∀ r ∈ recs, r.1.length ≤ 255 := by
  induction buf using epbParseRecords.induct generalizing recs with
  | case1 =>
    rw [epbParseRecords] at h
    obtain rfl : recs = [] := by simpa using h.symm
    simp
  | case2 lenB rest hcond rsv heq ih =>
    rw [epbParseRecords, if_pos hcond, heq] at h
    simp only [Option.some.injEq] at h
    subst h
    intro r hr
    rcases List.mem_cons.mp hr with hr | hr
    · subst hr
      obtain ⟨hc1, hc2⟩ := hcond
      have h255 : lenB ≤ 255 := by omega
      have hlt : (rest.take lenB).length ≤ lenB := by
        simp [List.length_take]
      simpa using le_trans hlt h255
    · exact ih heq r hr
  | case3 lenB rest hcond heq ih =>
    rw [epbParseRecords, if_pos hcond, heq] at h
    simp at h
  | case4 lenB rest hcond =>
    rw [epbParseRecords, if_neg hcond] at h
    simp at h

lemma zip_map_replicate (events : List (List Char)) :
    (events.map (fun e => utf8Str (rustTrim e))).zip (List.replicate events.length 0)
      = events.map (fun e => (utf8Str (rustTrim e), (0 : Nat))) := by
  induction events with
  | nil => rfl
  | cons e es ih => simp [List.replicate_succ, ih]

/-- C10: `register` enforces only the 15-event limit (it succeeds iff at most
15 names are given, regardless of name lengths); the built buffer always has
the layout `[1] ([len mod 256][trimmed-name-bytes][0,0,0,0])*`; when every
trimmed name is at most 255 bytes the buffer parses back, per the EPB
grammar, to exactly those trimmed names with zero counts; and when some
trimmed name exceeds 255 bytes it no longer does. -/
theorem register_limit_epb_c10 (a : EventAlerter) (evs : List (List Char)) :
    ((a.register evs).isSome ↔ evs.length ≤ MAX_EVENTS)
    ∧ build_event_buffer evs
        = EPB_VERSION1 :: evs.flatMap (fun e =>
            ((utf8Str (rustTrim e)).length % 256) :: (utf8Str (rustTrim e) ++ le4 0))
    ∧ ((∀ e ∈ evs, (utf8Str (rustTrim e)).length ≤ 255) →
        epbParse (build_event_buffer evs)
          = some (evs.map (fun e => (utf8Str (rustTrim e), 0))))
    ∧ ((∃ e ∈ evs, 255 < (utf8Str (rustTrim e)).length) →
        epbParse (build_event_buffer evs)
          ≠ some (evs.map (fun e => (utf8Str (rustTrim e), 0)))) := by
  refine ⟨?_, build_event_buffer_flat evs, ?_, ?_⟩
  · by_cases h : evs.length > MAX_EVENTS <;> simp [EventAlerter.register, h] <;> omega
  · intro hle
    have hnbs : ∀ nb ∈ evs.map (fun e => utf8Str (rustTrim e)), nb.length ≤ 255 := by
      intro nb hnb
      obtain ⟨e, he, rfl⟩ := List.mem_map.mp hnb
      exact hle e he
    have hcs : ∀ c ∈ List.replicate evs.length 0, c < 4294967296 := by
      intro c hc
      have := List.eq_of_mem_replicate hc
      omega
    have hbody := epbParseRecords_bodyZ (evs.map fun e => utf8Str (rustTrim e))
      (List.replicate evs.length 0) (by simp) hnbs hcs
    rw [build_event_buffer_flat, ← epbBodyZ_map_zero]
    show epbParseRecords _ = _
    rw [hbody, zip_map_replicate]
  · rintro ⟨e, he, hgt⟩ hparse
    rw [build_event_buffer_flat] at hparse
    have hrec : epbParseRecords (evs.flatMap (fun e =>
        ((utf8Str (rustTrim e)).length % 256) :: (utf8Str (rustTrim e) ++ le4 0)))
        = some (evs.map (fun e => (utf8Str (rustTrim e), 0))) := hparse
    have hle := epbParseRecords_names hrec (utf8Str (rustTrim e), 0)
      (List.mem_map.mpr ⟨e, he, rfl⟩)
    simp at hle
    omega

theorem register_limit_epb_c10_witness :
    ((EventAlerter.mk [] [] []).register [['a']]).isSome
    ∧ epbParse (build_event_buffer [['a']]) = some [([97], 0)] := by
  refine ⟨?_, ?_⟩
  · exact ((register_limit_epb_c10 ⟨[], [], []⟩ [['a']]).1).mpr (by decide)
  · have h := (register_limit_epb_c10 ⟨[], [], []⟩ [['a']]).2.2.1 (by decide)
    rw [h]
    decide

lemma fromLe4_read (w t : List Nat) (c : Nat) (hc : c < 4294967296)
    (p : Nat) (hp : p = w.length) :
    fromLe4 ((w ++ (le4 c ++ t)).getD p 0) ((w ++ (le4 c ++ t)).getD (p + 1) 0)
      ((w ++ (le4 c ++ t)).getD (p + 2) 0) ((w ++ (le4 c ++ t)).getD (p + 3) 0) = c := by
  subst hp
  have g0 := getD_append_len w (le4 c ++ t) 0 0
  have g1 := getD_append_len w (le4 c ++ t) 1 0
  have g2 := getD_append_len w (le4 c ++ t) 2 0
  have g3 := getD_append_len w (le4 c ++ t) 3 0
  simp only [Nat.add_zero] at g0
  rw [g0, g1, g2, g3]
  show fromLe4 (c % 256) (c / 256 % 256) (c / 65536 % 256) (c / 16777216 % 256) = c
  exact fromLe4_le4 c hc

lemma epbBodyZ_length (nbs : List (List Nat)) :
    ∀ (cs cs' : List Nat), cs.length = cs'.length →
    (epbBodyZ nbs cs).length = (epbBodyZ nbs cs').length := by
  induction nbs with
  | nil => intro cs cs' _; cases cs <;> cases cs' <;> rfl
  | cons nb nbs ih =>
    intro cs cs' h
    cases cs with
    | nil => cases cs' with
      | nil => rfl
      | cons c' cs' => simp at h
    | cons c cs =>
      cases cs' with
      | nil => simp at h
      | cons c' cs' =>
        simp only [epbBodyZ, List.length_cons, List.length_append, le4]
        rw [ih cs cs' (by simpa using h)]

lemma pecLoop_bodyZ (evs : List (List Char)) :
    ∀ (u v : List Nat), v.length = u.length →
    ∀ (nbs : List (List Nat)) (cs cs' : List Nat),
    nbs.length = evs.length → cs.length = evs.length → cs'.length = evs.length →
    (∀ nb ∈ nbs, nb.length ≤ 255) →
    (∀ c ∈ cs, c < 4294967296) → (∀ c ∈ cs', c < 4294967296) →
    pecLoop (u ++ epbBodyZ nbs cs) (v ++ epbBodyZ nbs cs') evs u.length
      = epbDiffs evs cs cs' := by
  induction evs with
  | nil =>
    intro u v _ nbs cs cs' _ _ _ _ _ _
    rfl
  | cons e es ih =>
    intro u v hlen nbs cs cs' h1 h2 h3 hnb hcs hcs'
    cases nbs with
    | nil => simp at h1
    | cons nb nbs =>
    cases cs with
    | nil => simp at h2
    | cons c cs =>
    cases cs' with
    | nil => simp at h3
    | cons c' cs' =>
    have hnb0 : nb.length ≤ 255 := hnb nb (by simp)
    have hmod : nb.length % 256 = nb.length := Nat.mod_eq_of_lt (by omega)
    have hc : c < 4294967296 := hcs c (by simp)
    have hc' : c' < 4294967296 := hcs' c' (by simp)
    have hbuf : u ++ epbBodyZ (nb :: nbs) (c :: cs)
        = (u ++ (nb.length :: nb)) ++ (le4 c ++ epbBodyZ nbs cs) := by
      simp [epbBodyZ, hmod]
    have hbuf' : v ++ epbBodyZ (nb :: nbs) (c' :: cs')
        = (v ++ (nb.length :: nb)) ++ (le4 c' ++ epbBodyZ nbs cs') := by
      simp [epbBodyZ, hmod]
    rw [hbuf, hbuf']
    have hEB : ((u ++ (nb.length :: nb)) ++ (le4 c ++ epbBodyZ nbs cs)).length
        = u.length + 1 + nb.length + 4 + (epbBodyZ nbs cs).length := by
      simp only [List.length_append, List.length_cons, le4, List.length_nil]
      omega
    have hname : ((u ++ (nb.length :: nb)) ++ (le4 c ++ epbBodyZ nbs cs)).getD u.length 0
        = nb.length := by
      have h := getD_append_len u ((nb.length :: nb) ++ (le4 c ++ epbBodyZ nbs cs)) 0 0
      simpa [List.append_assoc] using h
    rw [pecLoop, if_neg (by omega)]
    simp only [hname]
    rw [if_neg (by omega)]
    have hold := fromLe4_read (u ++ (nb.length :: nb)) (epbBodyZ nbs cs) c hc
      (u.length + 1 + nb.length)
      (by simp only [List.length_append, List.length_cons]; omega)
    have hnew := fromLe4_read (v ++ (nb.length :: nb)) (epbBodyZ nbs cs') c' hc'
      (u.length + 1 + nb.length)
      (by simp only [List.length_append, List.length_cons]; omega)
    rw [hold, hnew]
    have htail : pecLoop ((u ++ (nb.length :: nb)) ++ (le4 c ++ epbBodyZ nbs cs))
        ((v ++ (nb.length :: nb)) ++ (le4 c' ++ epbBodyZ nbs cs')) es
        (u.length + 1 + nb.length + 4)
        = epbDiffs es cs cs' := by
      have hstep := ih ((u ++ (nb.length :: nb)) ++ le4 c) ((v ++ (nb.length :: nb)) ++ le4 c')
        (by simp only [List.length_append, List.length_cons, le4, List.length_nil]; omega)
        nbs cs cs' (by simpa using h1) (by simpa using h2) (by simpa using h3)
        (fun x hx => hnb x (by simp [hx])) (fun x hx => hcs x (by simp [hx]))
        (fun x hx => hcs' x (by simp [hx]))
      rw [show ((u ++ (nb.length :: nb)) ++ le4 c) ++ epbBodyZ nbs cs
          = (u ++ (nb.length :: nb)) ++ (le4 c ++ epbBodyZ nbs cs) from
          List.append_assoc _ _ _] at hstep
      rw [show ((v ++ (nb.length :: nb)) ++ le4 c') ++ epbBodyZ nbs cs'
          = (v ++ (nb.length :: nb)) ++ (le4 c' ++ epbBodyZ nbs cs') from
          List.append_assoc _ _ _] at hstep
      rw [show u.length + 1 + nb.length + 4 = ((u ++ (nb.length :: nb)) ++ le4 c).length from by
        simp only [List.length_append, List.length_cons, le4, List.length_nil]
        omega]
      exact hstep
    rw [htail, epbDiffs]

lemma parse_event_counts_bodyZ (evs : List (List Char)) (nbs : List (List Nat))
    (cs cs' : List Nat)
    (h1 : nbs.length = evs.length) (h2 : cs.length = evs.length) (h3 : cs'.length = evs.length)
    (hnb : ∀ nb ∈ nbs, nb.length ≤ 255)
    (hcs : ∀ c ∈ cs, c < 4294967296) (hcs' : ∀ c ∈ cs', c < 4294967296) :
    parse_event_counts evs (EPB_VERSION1 :: epbBodyZ nbs cs)
      (EPB_VERSION1 :: epbBodyZ nbs cs') = epbDiffs evs cs cs' := by
  have hblen : (epbBodyZ nbs cs).length = (epbBodyZ nbs cs').length :=
    epbBodyZ_length nbs cs cs' (by omega)
  rw [parse_event_counts, if_neg (by simp [hblen])]
  have h := pecLoop_bodyZ evs [EPB_VERSION1] [EPB_VERSION1] rfl nbs cs cs' h1 h2 h3 hnb hcs hcs'
  simpa using h

lemma deltaSumFor_cons (a : List Char) (d : Nat) (rest : List (List Char × Nat))
    (e : List Char) :
    deltaSumFor ((a, d) :: rest) e
      = (if a = e then d else 0) + deltaSumFor rest e := by
  by_cases h : a = e <;> simp [deltaSumFor, List.filter_cons, h]

lemma deltaSumFor_not_mem (e : List Char) (evs : List (List Char)) :
    ∀ (cs cs' : List Nat), e ∉ evs → deltaSumFor (epbDiffs evs cs cs') e = 0 := by
  induction evs with
  | nil => intro cs cs' _; rfl
  | cons a es ih =>
    intro cs cs' h
    have ha : ¬ a = e := fun hae => h (by simp [hae])
    have hes : e ∉ es := fun he => h (by simp [he])
    cases cs with
    | nil => rfl
    | cons o os =>
      cases cs' with
      | nil => rfl
      | cons n ns =>
        by_cases hlt : o < n
        · rw [epbDiffs, if_pos hlt, deltaSumFor_cons, if_neg ha, ih os ns hes]
        · rw [epbDiffs, if_neg hlt, ih os ns hes]

lemma deltaSumFor_epbDiffs (evs : List (List Char)) :
    ∀ (cs cs' : List Nat) (i : Nat),
    i < evs.length → cs.length = evs.length → cs'.length = evs.length → evs.Nodup →
    deltaSumFor (epbDiffs evs cs cs') (evs.getD i [])
      = cs'.getD i 0 - cs.getD i 0 := by
  induction evs with
  | nil =>
    intro cs cs' i hi _ _ _
    exact absurd hi (by simp)
  | cons a es ih =>
    intro cs cs' i hi h2 h3 hnd
    obtain ⟨hnotin, hnd2⟩ := List.nodup_cons.mp hnd
    cases cs with
    | nil => simp at h2
    | cons o os =>
    cases cs' with
    | nil => simp at h3
    | cons n ns =>
    cases i with
    | zero =>
      simp only [List.getD_cons_zero]
      by_cases hlt : o < n
      · rw [epbDiffs, if_pos hlt, deltaSumFor_cons, if_pos rfl,
          deltaSumFor_not_mem a es os ns hnotin]
        omega
      · rw [epbDiffs, if_neg hlt, deltaSumFor_not_mem a es os ns hnotin]
        omega
    | succ j =>
      simp only [List.getD_cons_succ]
      have hj : j < es.length := by
        simp only [List.length_cons] at hi
        omega
      have hmem : es.getD j [] ∈ es := by
        rw [List.getD_eq_getElem es [] hj]
        exact List.getElem_mem hj
      have hane : ¬ a = es.getD j [] := fun hcontra => hnotin (hcontra ▸ hmem)
      have hrec := ih os ns j hj (by simpa using h2) (by simpa using h3) hnd2
      by_cases hlt : o < n
      · rw [epbDiffs, if_pos hlt, deltaSumFor_cons, if_neg hane, hrec]
        omega
      · rw [epbDiffs, if_neg hlt, hrec]

lemma epbDiffs_fst_sublist (evs : List (List Char)) :
    ∀ (cs cs' : List Nat), ((epbDiffs evs cs cs').map Prod.fst).Sublist evs := by
  induction evs with
  | nil => intro cs cs'; simp [epbDiffs]
  | cons a es ih =>
    intro cs cs'
    cases cs with
    | nil => simp [epbDiffs]
    | cons o os =>
      cases cs' with
      | nil => simp [epbDiffs]
      | cons n ns =>
        by_cases hlt : o < n
        · rw [epbDiffs, if_pos hlt]
          simpa using List.Sublist.cons₂ a (ih os ns)
        · rw [epbDiffs, if_neg hlt]
          exact List.Sublist.cons a (ih os ns)

lemma epbDiffs_delta_pos (evs : List (List Char)) :
    ∀ (cs cs' : List Nat) (p : List Char × Nat),
    p ∈ epbDiffs evs cs cs' → 1 ≤ p.2 := by
  induction evs with
  | nil => intro cs cs' p hp; simp [epbDiffs] at hp
  | cons a es ih =>
    intro cs cs' p hp
    cases cs with
    | nil => simp [epbDiffs] at hp
    | cons o os =>
      cases cs' with
      | nil => simp [epbDiffs] at hp
      | cons n ns =>
        by_cases hlt : o < n
        · rw [epbDiffs, if_pos hlt] at hp
          rcases List.mem_cons.mp hp with hp | hp
          · subst hp
            simp only
            omega
          · exact ih os ns p hp
        · rw [epbDiffs, if_neg hlt] at hp
          exact ih os ns p hp

lemma chain_getD_le_last (i : Nat) (rest : List (List Nat)) :
    ∀ (c : List Nat),
    List.Chain' (fun x y => x.getD i 0 ≤ y.getD i 0) (c :: rest) →
    c.getD i 0 ≤ ((c :: rest).getLast?.getD []).getD i 0 := by
  induction rest with
  | nil => intro c _; simp
  | cons c2 rest2 ih =>
    intro c h
    obtain ⟨h12, h2⟩ := List.chain'_cons.mp h
    have hrec := ih c2 h2
    rw [List.getLast?_cons_cons]
    omega

lemma runDeltaSum_chain (evs : List (List Char)) (nbs : List (List Nat)) (i : Nat)
    (h1 : nbs.length = evs.length) (hnb : ∀ nb ∈ nbs, nb.length ≤ 255)
    (hnd : evs.Nodup) (hi : i < evs.length) :
    ∀ (chain : List (List Nat)),
    (∀ c ∈ chain, c.length = evs.length ∧ ∀ x ∈ c, x < 4294967296) →
    List.Chain' (fun c c2 => c.getD i 0 ≤ c2.getD i 0) chain →
    runDeltaSum evs (evs.getD i []) (chain.map (fun c => EPB_VERSION1 :: epbBodyZ nbs c))
      = ((chain.getLast?.getD []).getD i 0) - ((chain.head?.getD []).getD i 0) := by
  intro chain
  induction chain with
  | nil => intro _ _; simp [runDeltaSum]
  | cons c rest ih =>
    intro hc hchain
    cases rest with
    | nil => simp [runDeltaSum]
    | cons c2 rest2 =>
      obtain ⟨h12, hch2⟩ := List.chain'_cons.mp hchain
      obtain ⟨hclen, hcbound⟩ := hc c (by simp)
      obtain ⟨hc2len, hc2bound⟩ := hc c2 (by simp)
      have hcyc := parse_event_counts_bodyZ evs nbs c c2 h1 hclen hc2len hnb hcbound hc2bound
      have hsum := deltaSumFor_epbDiffs evs c c2 i hi hclen hc2len hnd
      have hrest := ih (fun x hx => hc x (by simp [hx])) hch2
      simp only [List.map_cons] at hrest ⊢
      rw [runDeltaSum, hcyc, hsum, hrest]
      have hle2 := chain_getD_le_last i rest2 c2 hch2
      rw [List.getLast?_cons_cons]
      simp only [List.head?_cons, Option.getD_some]
      omega

/-- C4: on the well-formed EPB buffers the event loop exchanges (same
registered events, old counts, new counts), `parse_event_counts` returns
exactly the ordered diff list — each reported delta equals `new − old` for its
event and is at least 1, and (for distinct names) each registered event is
reported at most once per cycle; consequently, over a run of the alerter in
which each event's counts grow monotonically, the deltas passed to the
callback for an event sum to its final count minus its initial count. -/
theorem parse_event_deltas_c4 (evs : List (List Char)) (nbs : List (List Nat))
    (cs cs' : List Nat)
    (h1 : nbs.length = evs.length) (h2 : cs.length = evs.length) (h3 : cs'.length = evs.length)
    (hnb : ∀ nb ∈ nbs, nb.length ≤ 255)
    (hcs : ∀ c ∈ cs, c < 4294967296) (hcs' : ∀ c ∈ cs', c < 4294967296) :
    parse_event_counts evs (EPB_VERSION1 :: epbBodyZ nbs cs)
        (EPB_VERSION1 :: epbBodyZ nbs cs') = epbDiffs evs cs cs'
    ∧ (∀ p ∈ parse_event_counts evs (EPB_VERSION1 :: epbBodyZ nbs cs)
        (EPB_VERSION1 :: epbBodyZ nbs cs'), 1 ≤ p.2)
    ∧ (evs.Nodup →
        ((parse_event_counts evs (EPB_VERSION1 :: epbBodyZ nbs cs)
          (EPB_VERSION1 :: epbBodyZ nbs cs')).map Prod.fst).Nodup)
    ∧ (∀ (chain : List (List Nat)) (i : Nat), evs.Nodup → i < evs.length →
        (∀ c ∈ chain, c.length = evs.length ∧ ∀ x ∈ c, x < 4294967296) →
        List.Chain' (fun c c2 => c.getD i 0 ≤ c2.getD i 0) chain →
        runDeltaSum evs (evs.getD i []) (chain.map (fun c => EPB_VERSION1 :: epbBodyZ nbs c))
          = ((chain.getLast?.getD []).getD i 0) - ((chain.head?.getD []).getD i 0)) := by
  have hcyc := parse_event_counts_bodyZ evs nbs cs cs' h1 h2 h3 hnb hcs hcs'
  refine ⟨hcyc, ?_, ?_, ?_⟩
  · rw [hcyc]
    exact epbDiffs_delta_pos evs cs cs'
  · intro hnd
    rw [hcyc]
    exact (epbDiffs_fst_sublist evs cs cs').nodup hnd
  · intro chain i hnd hi hcm hchain
    exact runDeltaSum_chain evs nbs i h1 hnb hnd hi chain hcm hchain

theorem parse_event_deltas_c4_witness :
    parse_event_counts [['a'], ['b']]
        (EPB_VERSION1 :: epbBodyZ [[97], [98]] [0, 0])
        (EPB_VERSION1 :: epbBodyZ [[97], [98]] [3, 1])
      = [(['a'], 3), (['b'], 1)] := by
  have h := (parse_event_deltas_c4 [['a'], ['b']] [[97], [98]] [0, 0] [3, 1]
    (by decide) (by decide) (by decide) (by decide) (by decide) (by decide)).1
  rw [h]
  decide

end Claims

end Firebirust
